import Mathlib

set_option maxRecDepth 100000

/-!
Verification of `zarr_checksum/generators.py`.

The repository enumerates a hierarchical data store (a local directory tree
or an S3 bucket/key-space) and produces, per leaf file, a record holding a
root-relative path, a byte size and an MD5 digest.  This file embeds the
two generator functions `yield_files_local` and `yield_files_s3`, the
filtering rules, the path normalization (`pathlib.Path.relative_to`,
`os.path.basename`, `os.path.join(p, "")`), the ETag quote stripping
(`str.strip` with `"`), and the incremental MD5 computation performed with
`hashlib.md5` over 8192-byte chunks (RFC 1321), and proves the claimed
properties about them.

Modelling conventions:
* S3 keys and local store keys are relative POSIX-style strings; a path is
  represented by its list of segments, as `pathlib.PurePosixPath.parts`
  produces them for relative paths (empty and `.` components dropped).
* Bytes are natural numbers below 256; machine words in MD5 are naturals
  reduced `% 2 ^ 32` wherever the Python/C implementation would overflow.
* A Python generator run is a `GenResult`: the list of records yielded, in
  order, together with the terminal exception if one was raised, and a flag
  recording whether the empty-listing warning was emitted.
-/

/-- Split a character list on `/`, accumulating the current (reversed) chunk;
`splitSegsAux [] s.toList` equals Python `s.split(sep)` with `sep = "/"`. -/
def splitSegsAux (cur : List Char) : List Char → List String
  | [] => [String.mk cur.reverse]
  | c :: cs =>
    if c = '/' then String.mk cur.reverse :: splitSegsAux [] cs
    else splitSegsAux (c :: cur) cs

/-- `pre` is a prefix of `s`, Python `s.startswith(pre)`. -/
def strStartsWith (s pre : String) : Bool :=
  pre.toList.isPrefixOf s.toList

/-- `suf` is a suffix of `s`, Python `s.endswith(suf)`. -/
def strEndsWith (s suf : String) : Bool :=
  suf.toList.isSuffixOf s.toList

/-- Segments of a relative POSIX path string, as `pathlib.PurePosixPath(s).parts`
computes them: split on `/`, dropping empty components and `.` components. -/
def pathParts (s : String) : List String :=
  (splitSegsAux [] s.toList).filter (fun c => c != "" && c != ".")

/-- `os.path.basename(Path(key))` for a relative key: the final path segment
(`.` for a key with no segments, matching `os.path.basename(".")`). -/
def basename (key : String) : String :=
  (pathParts key).getLastD "."

/-- `Path(key).relative_to(pfx)`: if the segment list of `pfx` is a prefix of
the segment list of `key`, the remaining segments; otherwise `none`
(pathlib raises `ValueError` there). -/
def relativeTo (key pfx : String) : Option (List String) :=
  let kp := pathParts key
  let pp := pathParts pfx
  if pp.isPrefixOf kp then some (kp.drop pp.length) else none

/-- `os.path.join(p, "")`: `p` with a trailing separator ensured, except the
empty string is left unchanged. -/
def osPathJoinEmpty (p : String) : String :=
  if p = "" then "" else if strEndsWith p "/" then p else p ++ "/"

/-- Python `s.strip(QUOTE)` where `QUOTE` is the double-quote character:
remove every leading and trailing `"` character. -/
def stripQuotes (s : String) : String :=
  String.mk (((s.toList.dropWhile (fun c => c = '"')).reverse.dropWhile
    (fun c => c = '"')).reverse)

/-! ## MD5 (the `hashlib.md5` collaborator, RFC 1321) -/

/-- `2 ^ 32`, the word modulus of MD5. -/
def w32 : Nat := 4294967296

/-- Rotate a 32-bit word left by `s` bits. -/
def rotl32 (x s : Nat) : Nat :=
  ((x <<< s) % w32) ||| (x >>> (32 - s))

/-- The 64 sine-derived round constants of MD5. -/
def md5K : List Nat :=
  [0xd76aa478, 0xe8c7b756, 0x242070db, 0xc1bdceee,
   0xf57c0faf, 0x4787c62a, 0xa8304613, 0xfd469501,
   0x698098d8, 0x8b44f7af, 0xffff5bb1, 0x895cd7be,
   0x6b901122, 0xfd987193, 0xa679438e, 0x49b40821,
   0xf61e2562, 0xc040b340, 0x265e5a51, 0xe9b6c7aa,
   0xd62f105d, 0x02441453, 0xd8a1e681, 0xe7d3fbc8,
   0x21e1cde6, 0xc33707d6, 0xf4d50d87, 0x455a14ed,
   0xa9e3e905, 0xfcefa3f8, 0x676f02d9, 0x8d2a4c8a,
   0xfffa3942, 0x8771f681, 0x6d9d6122, 0xfde5380c,
   0xa4beea44, 0x4bdecfa9, 0xf6bb4b60, 0xbebfbc70,
   0x289b7ec6, 0xeaa127fa, 0xd4ef3085, 0x04881d05,
   0xd9d4d039, 0xe6db99e5, 0x1fa27cf8, 0xc4ac5665,
   0xf4292244, 0x432aff97, 0xab9423a7, 0xfc93a039,
   0x655b59c3, 0x8f0ccc92, 0xffeff47d, 0x85845dd1,
   0x6fa87e4f, 0xfe2ce6e0, 0xa3014314, 0x4e0811a1,
   0xf7537e82, 0xbd3af235, 0x2ad7d2bb, 0xeb86d391]

/-- Round function of MD5 at step `i`. -/
def md5F (i b c d : Nat) : Nat :=
  if i < 16 then (b &&& c) ||| ((b ^^^ 0xffffffff) &&& d)
  else if i < 32 then (d &&& b) ||| ((d ^^^ 0xffffffff) &&& c)
  else if i < 48 then b ^^^ c ^^^ d
  else c ^^^ (b ||| (d ^^^ 0xffffffff))

/-- Message word index used at step `i` of MD5. -/
def md5G (i : Nat) : Nat :=
  if i < 16 then i
  else if i < 32 then (5 * i + 1) % 16
  else if i < 48 then (3 * i + 5) % 16
  else (7 * i) % 16

/-- Left-rotation amount used at step `i` of MD5. -/
def md5S (i : Nat) : Nat :=
  if i < 16 then [7, 12, 17, 22].getD (i % 4) 0
  else if i < 32 then [5, 9, 14, 20].getD (i % 4) 0
  else if i < 48 then [4, 11, 16, 23].getD (i % 4) 0
  else [6, 10, 15, 21].getD (i % 4) 0

/-- Decode a little-endian 32-bit word from the first four entries of a byte list. -/
def bytesToWord (l : List Nat) : Nat :=
  l.getD 0 0 + 256 * l.getD 1 0 + 65536 * l.getD 2 0 + 16777216 * l.getD 3 0

/-- One step of the MD5 compression round over state `(a, b, c, d)`. -/
def md5Step (m : List Nat) (st : Nat × Nat × Nat × Nat) (i : Nat) :
    Nat × Nat × Nat × Nat :=
  let t := (md5F i st.2.1 st.2.2.1 st.2.2.2 + st.1 + md5K.getD i 0 +
    m.getD (md5G i) 0) % w32
  (st.2.2.2, (st.2.1 + rotl32 t (md5S i)) % w32, st.2.1, st.2.2.1)

/-- The MD5 compression function over one 64-byte block. -/
def md5Compress (h : Nat × Nat × Nat × Nat) (block : List Nat) :
    Nat × Nat × Nat × Nat :=
  let m := (List.range 16).map (fun j => bytesToWord (block.drop (4 * j)))
  let r := (List.range 64).foldl (md5Step m) h
  ((h.1 + r.1) % w32, (h.2.1 + r.2.1) % w32,
   (h.2.2.1 + r.2.2.1) % w32, (h.2.2.2 + r.2.2.2) % w32)

/-- Consume complete 64-byte blocks of `buf`, with explicit fuel bounding the
number of iterations (each iteration removes 64 bytes, so any fuel of at least
`buf.length` suffices, and the result is fuel-independent beyond that). -/
def consumeBlocksAux : Nat → Nat × Nat × Nat × Nat → List Nat →
    (Nat × Nat × Nat × Nat) × List Nat
  | 0, h, buf => (h, buf)
  | fuel + 1, h, buf =>
    if 64 ≤ buf.length then
      consumeBlocksAux fuel (md5Compress h (buf.take 64)) (buf.drop 64)
    else (h, buf)

/-- Consume every complete 64-byte block of `buf`, returning the updated chaining
value and the remaining (fewer than 64) buffered bytes. -/
def consumeBlocks (h : Nat × Nat × Nat × Nat) (buf : List Nat) :
    (Nat × Nat × Nat × Nat) × List Nat :=
  consumeBlocksAux buf.length h buf

/-- The incremental state of `hashlib.md5`: chaining value, buffered bytes not
yet forming a full block, and the total byte count seen so far. -/
structure MD5State where
  h : Nat × Nat × Nat × Nat
  buf : List Nat
  len : Nat
deriving DecidableEq, Repr

/-- The initial MD5 state (`hashlib.md5()`). -/
def md5Init : MD5State :=
  ⟨(0x67452301, 0xefcdab89, 0x98badcfe, 0x10325476), [], 0⟩

/-- `m.update(bytes)`: buffer the new bytes and consume complete blocks. -/
def md5Update (s : MD5State) (bytes : List Nat) : MD5State :=
  let r := consumeBlocks s.h (s.buf ++ bytes)
  ⟨r.1, r.2, s.len + bytes.length⟩

/-- The lowercase hexadecimal digit character for a nibble value. -/
def hexDigit (n : Nat) : Char :=
  if n < 10 then Char.ofNat (48 + n) else Char.ofNat (87 + n)

/-- Lowercase hexadecimal rendering of one byte. -/
def byteHex (b : Nat) : String :=
  String.mk [hexDigit (b / 16 % 16), hexDigit (b % 16)]

/-- Lowercase hexadecimal rendering of a 32-bit word, little-endian byte order. -/
def hexLE (w : Nat) : String :=
  byteHex (w % 256) ++ byteHex (w >>> 8 % 256) ++
  byteHex (w >>> 16 % 256) ++ byteHex (w >>> 24 % 256)

/-- `m.hexdigest()`: pad with `0x80`, zeros up to 56 mod 64, and the 64-bit
little-endian bit length, consume the final blocks and render the digest. -/
def md5Final (s : MD5State) : String :=
  let k := (119 - s.len % 64) % 64
  let msg := s.buf ++ 128 :: List.replicate k 0 ++
    (List.range 8).map (fun j => (s.len * 8) >>> (8 * j) % 256)
  let r := consumeBlocks s.h msg
  hexLE r.1.1 ++ hexLE r.1.2.1 ++ hexLE r.1.2.2.1 ++ hexLE r.1.2.2.2

/-- The MD5 hex digest of a byte list in one pass. -/
def md5Hex (bytes : List Nat) : String :=
  md5Final (md5Update md5Init bytes)

/-! ## Records and generator outcomes -/

/-- `ZarrArchiveFile`: a root-relative path (as its segment list), a byte
size and an MD5 hex digest. -/
structure ZarrArchiveFile where
  path : List String
  size : Nat
  digest : String
deriving DecidableEq, Repr

/-- The fatal errors a generator run can raise: the local root missing
(`Exception("Path does not exist")`, the spec's `RootNotFoundError`) and a
listed key not starting with the configured root (`Path.relative_to`
raising `ValueError`, the spec's `PrefixMismatchError`). -/
inductive EnumError where
  | rootNotFound
  | prefixMismatch (key pfx : String)
deriving DecidableEq, Repr

/-- The observable outcome of draining one generator run: the records
yielded in order, the terminal exception if one was raised after them, and
whether the empty-listing warning was logged. -/
structure GenResult where
  files : List ZarrArchiveFile
  error : Option EnumError
  warned : Bool
deriving DecidableEq, Repr

/-! ## Local filesystem source (`yield_files_local`) -/

/-- A directory tree: leaves are regular files carrying their byte content,
inner nodes are directories with named entries. -/
inductive FsTree where
  | file (content : List Nat) : FsTree
  | dir (entries : List (String × FsTree)) : FsTree

mutual

/-- All regular files reachable from a node, as (segment path, content)
pairs in traversal order — the model of `NestedDirectoryStore(root).keys()`
together with reading each file's content. -/
def filesOf : FsTree → List (List String × List Nat)
  | .file c => [([], c)]
  | .dir es => filesOfEntries es

/-- `filesOf` mapped over a directory's entries, prefixing each child name. -/
def filesOfEntries : List (String × FsTree) → List (List String × List Nat)
  | [] => []
  | (n, t) :: rest =>
    ((filesOf t).map (fun pc => (n :: pc.1, pc.2))) ++ filesOfEntries rest

end

mutual

/-- The node contains no regular file anywhere: it is an arbitrarily nested
tree of empty (or file-free) directories. -/
def noFile : FsTree → Bool
  | .file _ => false
  | .dir es => noFileEntries es

/-- `noFile` over all entries of a directory. -/
def noFileEntries : List (String × FsTree) → Bool
  | [] => true
  | (_, t) :: rest => noFile t && noFileEntries rest

end

/-- The per-file body of the `yield_files_local` loop: base-name filtering
(exclusion list, then hidden files when enabled), then the record with the
store key as path, the file's byte length as size, and the MD5 digest of
its content. -/
def localEmit (excluded : List String) (ignoreHidden : Bool)
    (pc : List String × List Nat) : Option ZarrArchiveFile :=
  let filename := pc.1.getLastD "."
  if filename ∈ excluded then none
  else if ignoreHidden && strStartsWith filename "." then none
  else some ⟨pc.1, pc.2.length, md5Hex pc.2⟩

/-- `yield_files_local`: `root = none` models a root path that does not
exist, in which case the generator raises before yielding anything;
otherwise every store key is processed by the loop body in traversal
order. -/
def yieldFilesLocal (root : Option FsTree) (excluded : List String)
    (ignoreHidden : Bool) : GenResult :=
  match root with
  | none => ⟨[], some .rootNotFound, false⟩
  | some t => ⟨(filesOf t).filterMap (localEmit excluded ignoreHidden), none, false⟩

/-! ## Object store source (`yield_files_s3`) -/

/-- One entry of an S3 `ListObjectsV2` response: key, size and quoted ETag. -/
structure S3Object where
  key : String
  size : Nat
  etag : String
deriving DecidableEq, Repr

/-- An S3 backend, abstracted as the pages (in order) that repeated
`list_objects_v2` calls for a given `Prefix` return; the page split is
backend-defined. -/
structure S3Backend where
  pages : String → List (List S3Object)

/-- A `ListObjectsV2` response: the entries of one page, and the
continuation token for the next page if the listing is truncated. -/
structure ListResponse where
  contents : List S3Object
  nextContinuationToken : Option Nat
deriving DecidableEq, Repr

/-- `client.list_objects_v2(Bucket, Prefix, [ContinuationToken])`: without a
token the first page is served; with token `i` page `i` is served; the
response carries token `i + 1` exactly when more pages remain. -/
def listObjectsV2 (b : S3Backend) (pfx : String) (token : Option Nat) :
    ListResponse :=
  let pages := b.pages pfx
  let i := token.getD 0
  ⟨pages.getD i [], if i + 1 < pages.length then some (i + 1) else none⟩

/-- The body of the `for obj in res.get("Contents", [])` loop of
`yield_files_s3`: base-name filtering as in the local source, then
`Path(key).relative_to(prefix)` — which raises (ending the run with a
`prefixMismatch` error, records yielded so far kept) when the key does not
start with the prefix — and a record taking size and quote-stripped ETag
straight from the listing entry. -/
def processEntries (pfx : String) (excluded : List String)
    (ignoreHidden : Bool) : List S3Object → List ZarrArchiveFile × Option EnumError
  | [] => ([], none)
  | obj :: rest =>
    let filename := basename obj.key
    if filename ∈ excluded then processEntries pfx excluded ignoreHidden rest
    else if ignoreHidden && strStartsWith filename "." then
      processEntries pfx excluded ignoreHidden rest
    else
      match relativeTo obj.key pfx with
      | none => ([], some (.prefixMismatch obj.key pfx))
      | some p =>
        let pr := processEntries pfx excluded ignoreHidden rest
        (⟨p, obj.size, stripQuotes obj.etag⟩ :: pr.1, pr.2)

/-- The error-free view of one loop-body step: `none` when the entry is
filtered out, otherwise the record it produces. -/
def s3Emit (pfx : String) (excluded : List String) (ignoreHidden : Bool)
    (obj : S3Object) : Option ZarrArchiveFile :=
  let filename := basename obj.key
  if filename ∈ excluded then none
  else if ignoreHidden && strStartsWith filename "." then none
  else (relativeTo obj.key pfx).map
    (fun p => ⟨p, obj.size, stripQuotes obj.etag⟩)

/-- The `while True` pagination loop of `yield_files_s3`: fetch a page
(carrying the continuation token of the previous response), run the
per-entry body, stop on an exception or when the response carries no
continuation token.  The fuel bounds the iteration count; tokens increase
strictly, so fuel `(b.pages pfx).length` is never exhausted. -/
def s3Loop (b : S3Backend) (pfx : String) (excluded : List String)
    (ignoreHidden : Bool) : Option Nat → Nat → GenResult
  | _, 0 => ⟨[], none, false⟩
  | token, fuel + 1 =>
    let res := listObjectsV2 b pfx token
    let pr := processEntries pfx excluded ignoreHidden res.contents
    match pr.2 with
    | some e => ⟨pr.1, some e, false⟩
    | none =>
      match res.nextContinuationToken with
      | none => ⟨pr.1, none, false⟩
      | some t =>
        let rest := s3Loop b pfx excluded ignoreHidden (some t) fuel
        ⟨pr.1 ++ rest.files, rest.error, rest.warned⟩

/-- `yield_files_s3`: one probing request with the prefix passed through
`os.path.join(prefix, "")`; if its response has no `Contents`, a warning is
logged and the generator ends empty; otherwise the pagination loop runs
with the raw prefix, starting without a continuation token. -/
def yieldFilesS3 (b : S3Backend) (pfx : String) (excluded : List String)
    (ignoreHidden : Bool) : GenResult :=
  let testResp := listObjectsV2 b (osPathJoinEmpty pfx) none
  if testResp.contents.isEmpty then ⟨[], none, true⟩
  else s3Loop b pfx excluded ignoreHidden none (b.pages pfx).length

/-! ## Properties of the incremental MD5 computation -/

/-- `consumeBlocksAux` does not depend on the fuel once the fuel covers the
buffer length. -/
theorem consumeBlocksAux_congr :
    ∀ (f₁ f₂ : Nat) (h : Nat × Nat × Nat × Nat) (buf : List Nat),
      buf.length ≤ f₁ → buf.length ≤ f₂ →
      consumeBlocksAux f₁ h buf = consumeBlocksAux f₂ h buf := by
  intro f₁
  induction f₁ with
  | zero =>
    intro f₂ h buf h1 h2
    have hb : buf = [] := List.eq_nil_of_length_eq_zero (Nat.le_zero.mp h1)
    subst hb
    cases f₂ <;> simp [consumeBlocksAux]
  | succ n ih =>
    intro f₂ h buf h1 h2
    cases f₂ with
    | zero =>
      have hb : buf = [] := List.eq_nil_of_length_eq_zero (Nat.le_zero.mp h2)
      subst hb
      simp [consumeBlocksAux]
    | succ m =>
      by_cases h64 : 64 ≤ buf.length
      · simp only [consumeBlocksAux, if_pos h64]
        exact ih m _ _ (by simp [List.length_drop]; omega)
          (by simp [List.length_drop]; omega)
      · simp only [consumeBlocksAux, if_neg h64]

/-- The remainder left by `consumeBlocksAux` is shorter than one block. -/
theorem consumeBlocksAux_snd_lt :
    ∀ (fuel : Nat) (h : Nat × Nat × Nat × Nat) (buf : List Nat),
      buf.length ≤ fuel → (consumeBlocksAux fuel h buf).2.length < 64 := by
  intro fuel
  induction fuel with
  | zero =>
    intro h buf h1
    have hb : buf = [] := List.eq_nil_of_length_eq_zero (Nat.le_zero.mp h1)
    subst hb
    simp [consumeBlocksAux]
  | succ n ih =>
    intro h buf h1
    by_cases h64 : 64 ≤ buf.length
    · simp only [consumeBlocksAux, if_pos h64]
      exact ih _ _ (by simp [List.length_drop]; omega)
    · simp only [consumeBlocksAux, if_neg h64]
      omega

/-- The remainder left by `consumeBlocks` is shorter than one block. -/
theorem consumeBlocks_snd_lt (h : Nat × Nat × Nat × Nat) (buf : List Nat) :
    (consumeBlocks h buf).2.length < 64 :=
  consumeBlocksAux_snd_lt buf.length h buf (Nat.le_refl _)

/-- A buffer shorter than one block is left untouched. -/
theorem consumeBlocks_of_lt (h : Nat × Nat × Nat × Nat) (buf : List Nat)
    (hlt : buf.length < 64) : consumeBlocks h buf = (h, buf) := by
  unfold consumeBlocks
  cases hl : buf.length with
  | zero => simp [consumeBlocksAux]
  | succ n =>
    have : ¬ 64 ≤ buf.length := by omega
    simp [consumeBlocksAux, this]

/-- Feeding extra bytes after block consumption agrees with consuming the
concatenated buffer in one go. -/
theorem consumeBlocksAux_append :
    ∀ (fuel : Nat) (h : Nat × Nat × Nat × Nat) (buf xs : List Nat),
      buf.length ≤ fuel →
      consumeBlocks h (buf ++ xs) =
        consumeBlocks (consumeBlocksAux fuel h buf).1
          ((consumeBlocksAux fuel h buf).2 ++ xs) := by
  intro fuel
  induction fuel with
  | zero =>
    intro h buf xs h1
    have hb : buf = [] := List.eq_nil_of_length_eq_zero (Nat.le_zero.mp h1)
    subst hb
    simp [consumeBlocksAux]
  | succ n ih =>
    intro h buf xs h1
    by_cases h64 : 64 ≤ buf.length
    · simp only [consumeBlocksAux, if_pos h64]
      rw [← ih (md5Compress h (buf.take 64)) (buf.drop 64) xs
        (by simp [List.length_drop]; omega)]
      show consumeBlocks h (buf ++ xs) =
        consumeBlocks (md5Compress h (buf.take 64)) (buf.drop 64 ++ xs)
      unfold consumeBlocks
      cases hl : (buf ++ xs).length with
      | zero => rw [List.length_append] at hl; omega
      | succ m =>
        have h64' : 64 ≤ (buf ++ xs).length := by
          rw [List.length_append]; omega
        simp only [consumeBlocksAux, if_pos h64']
        rw [List.take_append_of_le_length (by omega),
          List.drop_append_of_le_length (by omega)]
        refine consumeBlocksAux_congr _ _ _ _ ?_ (Nat.le_refl _)
        rw [List.length_append] at hl
        simp only [List.length_append, List.length_drop]
        omega
    · simp only [consumeBlocksAux, if_neg h64]

/-- `hashlib` update composition: updating with `xs` and then `ys` is the
update with `xs ++ ys`. -/
theorem md5Update_append (s : MD5State) (xs ys : List Nat) :
    md5Update (md5Update s xs) ys = md5Update s (xs ++ ys) := by
  unfold md5Update
  rw [← List.append_assoc]
  have h := consumeBlocksAux_append (s.buf ++ xs).length s.h (s.buf ++ xs) ys
    (Nat.le_refl _)
  show (⟨(consumeBlocks _ _).1, (consumeBlocks _ _).2, _⟩ : MD5State) = _
  rw [show consumeBlocksAux (s.buf ++ xs).length s.h (s.buf ++ xs) =
      consumeBlocks s.h (s.buf ++ xs) from rfl] at h
  rw [← h]
  simp [List.length_append]
  omega

/-- Updating with no bytes is the identity on well-formed states. -/
theorem md5Update_nil (s : MD5State) (hs : s.buf.length < 64) :
    md5Update s [] = s := by
  unfold md5Update
  simp [consumeBlocks_of_lt s.h s.buf hs]

/-- Folding `md5Update` over any chunk decomposition equals one update with
the concatenation, for states whose buffer is shorter than a block. -/
theorem foldl_md5Update (chunks : List (List Nat)) :
    ∀ (s : MD5State), s.buf.length < 64 →
      chunks.foldl md5Update s = md5Update s chunks.flatten := by
  induction chunks with
  | nil =>
    intro s hs
    simp [md5Update_nil s hs]
  | cons c cs ih =>
    intro s hs
    have hbuf : (md5Update s c).buf.length < 64 := by
      unfold md5Update
      exact consumeBlocks_snd_lt _ _
    simp only [List.foldl_cons, List.flatten_cons]
    rw [ih (md5Update s c) hbuf, md5Update_append]

/-! ## Properties of the local filesystem source -/

/-- With no exclusion list and hidden files not ignored, the loop body of
`yield_files_local` accepts every file. -/
theorem localEmit_no_filters (pc : List String × List Nat) :
    localEmit [] false pc = some ⟨pc.1, pc.2.length, md5Hex pc.2⟩ := by
  simp [localEmit]

/-- Unfiltered local enumeration maps every discovered file to its record. -/
theorem filterMap_localEmit_no_filters (l : List (List String × List Nat)) :
    l.filterMap (localEmit [] false) =
      l.map (fun pc => ⟨pc.1, pc.2.length, md5Hex pc.2⟩) := by
  induction l with
  | nil => rfl
  | cons a l ih => simp [List.filterMap_cons, localEmit_no_filters, ih]

mutual

/-- A file-free tree contributes no discovered files. -/
theorem noFile_filesOf : ∀ (t : FsTree), noFile t = true → filesOf t = []
  | .file _ => by simp [noFile]
  | .dir es => fun h => by
    simpa [filesOf] using noFileEntries_filesOfEntries es (by simpa [noFile] using h)

/-- Entry lists of file-free trees contribute no discovered files. -/
theorem noFileEntries_filesOfEntries :
    ∀ (es : List (String × FsTree)), noFileEntries es = true → filesOfEntries es = []
  | [] => fun _ => rfl
  | (n, t) :: rest => fun h => by
    rw [noFileEntries, Bool.and_eq_true] at h
    rw [filesOfEntries, noFile_filesOf t h.1,
      noFileEntries_filesOfEntries rest h.2]
    rfl

end

/-- What a successful run of the local loop body guarantees about the record
it emits. -/
theorem localEmit_eq_some {e : List String} {hid : Bool}
    {pc : List String × List Nat} {r : ZarrArchiveFile}
    (hr : localEmit e hid pc = some r) :
    r.path = pc.1 ∧ r.path.getLastD "." ∉ e ∧
      (hid = true → strStartsWith (r.path.getLastD ".") "." = false) ∧
      r.size = pc.2.length ∧ r.digest = md5Hex pc.2 := by
  simp only [localEmit] at hr
  split at hr
  · exact absurd hr (by simp)
  · split at hr
    · exact absurd hr (by simp)
    · cases hr
      rename_i hmem hhid
      refine ⟨rfl, hmem, ?_, rfl, rfl⟩
      intro h
      subst h
      simpa using hhid

/-! ## Properties of the object store source -/

/-- When every listed key normalizes against the prefix, the per-entry loop
body raises nothing and yields exactly the filtered entries in order. -/
theorem processEntries_ok {pfx : String} {e : List String} {hid : Bool} :
    ∀ {l : List S3Object}, (∀ o ∈ l, (relativeTo o.key pfx).isSome) →
      processEntries pfx e hid l = (l.filterMap (s3Emit pfx e hid), none) := by
  intro l
  induction l with
  | nil => intro _; rfl
  | cons obj rest ih =>
    intro hl
    have hobj : (relativeTo obj.key pfx).isSome := hl obj (by simp)
    have hrest := ih (fun o ho => hl o (by simp [ho]))
    obtain ⟨p, hp⟩ := Option.isSome_iff_exists.mp hobj
    by_cases h1 : basename obj.key ∈ e
    · simp only [processEntries, s3Emit, if_pos h1, List.filterMap_cons]
      exact hrest
    · by_cases h2 : (hid && strStartsWith (basename obj.key) ".") = true
      · simp only [processEntries, s3Emit, if_neg h1, if_pos h2,
          List.filterMap_cons]
        exact hrest
      · simp only [processEntries, s3Emit, if_neg h1, if_neg h2,
          List.filterMap_cons, hp, hrest, Option.map_some']

/-- Every record produced by the per-entry loop body originates from a listed
entry that passed both filters and normalized successfully. -/
theorem processEntries_mem {pfx : String} {e : List String} {hid : Bool} :
    ∀ {l : List S3Object} {r : ZarrArchiveFile},
      r ∈ (processEntries pfx e hid l).1 →
      ∃ o ∈ l, basename o.key ∉ e ∧
        (hid = true → strStartsWith (basename o.key) "." = false) ∧
        relativeTo o.key pfx = some r.path ∧ r.size = o.size ∧
        r.digest = stripQuotes o.etag := by
  intro l
  induction l with
  | nil => intro r hr; exact absurd hr (by simp [processEntries])
  | cons obj rest ih =>
    intro r hr
    by_cases h1 : basename obj.key ∈ e
    · rw [processEntries, if_pos h1] at hr
      obtain ⟨o, ho, hrest⟩ := ih hr
      exact ⟨o, by simp [ho], hrest⟩
    · by_cases h2 : (hid && strStartsWith (basename obj.key) ".") = true
      · rw [processEntries, if_neg h1, if_pos h2] at hr
        obtain ⟨o, ho, hrest⟩ := ih hr
        exact ⟨o, by simp [ho], hrest⟩
      · rw [processEntries, if_neg h1, if_neg h2] at hr
        cases hrel : relativeTo obj.key pfx with
        | none => rw [hrel] at hr; exact absurd hr (by simp)
        | some p =>
          rw [hrel] at hr
          simp only [List.mem_cons] at hr
          cases hr with
          | inl hr =>
            subst hr
            refine ⟨obj, by simp, h1, ?_, by simpa using hrel, rfl, rfl⟩
            intro h
            subst h
            simpa using h2
          | inr hr =>
            obtain ⟨o, ho, hrest⟩ := ih hr
            exact ⟨o, by simp [ho], hrest⟩

/-- An element of any page indexed by `getD` lies in the flattened listing. -/
theorem mem_getD_flatten {L : List (List S3Object)} {i : Nat} {o : S3Object}
    (h : o ∈ L.getD i []) : o ∈ L.flatten := by
  rcases Nat.lt_or_ge i L.length with hi | hi
  · rw [List.getD_eq_getElem?_getD, List.getElem?_eq_getElem hi] at h
    exact List.mem_flatten.mpr ⟨L[i], List.getElem_mem hi, h⟩
  · rw [List.getD_eq_getElem?_getD, List.getElem?_eq_none hi] at h
    exact absurd h (by simp)

/-- The pagination loop never emits the empty-listing warning. -/
theorem s3Loop_warned (b : S3Backend) (pfx : String) (e : List String)
    (hid : Bool) : ∀ (fuel : Nat) (token : Option Nat),
      (s3Loop b pfx e hid token fuel).warned = false := by
  intro fuel
  induction fuel with
  | zero => intro token; rfl
  | succ n ih =>
    intro token
    rw [s3Loop]
    cases (processEntries pfx e hid (listObjectsV2 b pfx token).contents).2 with
    | some err => rfl
    | none =>
      cases (listObjectsV2 b pfx token).nextContinuationToken with
      | none => rfl
      | some t => exact ih (some t)

/-- Every record yielded by the pagination loop originates from an entry of
the flattened listing that passed both filters. -/
theorem s3Loop_mem {b : S3Backend} {pfx : String} {e : List String}
    {hid : Bool} : ∀ {fuel : Nat} {token : Option Nat} {r : ZarrArchiveFile},
      r ∈ (s3Loop b pfx e hid token fuel).files →
      ∃ o ∈ (b.pages pfx).flatten, basename o.key ∉ e ∧
        (hid = true → strStartsWith (basename o.key) "." = false) ∧
        relativeTo o.key pfx = some r.path ∧ r.size = o.size ∧
        r.digest = stripQuotes o.etag := by
  intro fuel
  induction fuel with
  | zero => intro token r hr; exact absurd hr (by simp [s3Loop])
  | succ n ih =>
    intro token r hr
    rw [s3Loop] at hr
    have hpage : ∀ o, o ∈ (listObjectsV2 b pfx token).contents →
        o ∈ (b.pages pfx).flatten := by
      intro o ho
      exact mem_getD_flatten (i := token.getD 0) ho
    cases hp : (processEntries pfx e hid (listObjectsV2 b pfx token).contents).2 with
    | some err =>
      rw [hp] at hr
      dsimp only at hr
      obtain ⟨o, ho, hrest⟩ := processEntries_mem hr
      exact ⟨o, hpage o ho, hrest⟩
    | none =>
      rw [hp] at hr
      dsimp only at hr
      cases hnext : (listObjectsV2 b pfx token).nextContinuationToken with
      | none =>
        rw [hnext] at hr
        dsimp only at hr
        obtain ⟨o, ho, hrest⟩ := processEntries_mem hr
        exact ⟨o, hpage o ho, hrest⟩
      | some t =>
        rw [hnext] at hr
        dsimp only at hr
        rw [List.mem_append] at hr
        cases hr with
        | inl hr =>
          obtain ⟨o, ho, hrest⟩ := processEntries_mem hr
          exact ⟨o, hpage o ho, hrest⟩
        | inr hr => exact ih hr

/-- Every record yielded by `yield_files_s3` originates from an entry of the
flattened listing that passed both filters. -/
theorem yieldFilesS3_mem {b : S3Backend} {pfx : String} {e : List String}
    {hid : Bool} {r : ZarrArchiveFile}
    (hr : r ∈ (yieldFilesS3 b pfx e hid).files) :
    ∃ o ∈ (b.pages pfx).flatten, basename o.key ∉ e ∧
      (hid = true → strStartsWith (basename o.key) "." = false) ∧
      relativeTo o.key pfx = some r.path ∧ r.size = o.size ∧
      r.digest = stripQuotes o.etag := by
  rw [yieldFilesS3] at hr
  split at hr
  · exact absurd hr (by simp)
  · exact s3Loop_mem hr

/-- Successful normalization strips the prefix segments exactly once: the
key's segments are the prefix's segments followed by the produced path. -/
theorem relativeTo_strips_once {key pfx : String} {p : List String}
    (h : relativeTo key pfx = some p) :
    pathParts key = pathParts pfx ++ p := by
  simp only [relativeTo] at h
  split at h
  · rename_i hpre
    cases h
    obtain ⟨t, ht⟩ := List.isPrefixOf_iff_prefix.mp hpre
    rw [← ht, List.drop_left]
  · exact absurd h (by simp)

/-- With every key normalizing and enough fuel, the pagination loop starting
from page `i` yields exactly the filtered entries of pages `i, i+1, ...` in
page order then intra-page order, raising nothing and warning nothing. -/
theorem s3Loop_run {b : S3Backend} {pfx : String} {e : List String}
    {hid : Bool}
    (hAll : ∀ o ∈ (b.pages pfx).flatten, (relativeTo o.key pfx).isSome) :
    ∀ (fuel : Nat) (token : Option Nat),
      token.getD 0 < (b.pages pfx).length →
      (b.pages pfx).length - token.getD 0 ≤ fuel →
      s3Loop b pfx e hid token fuel =
        ⟨(((b.pages pfx).drop (token.getD 0)).flatten).filterMap
          (s3Emit pfx e hid), none, false⟩ := by
  intro fuel
  induction fuel with
  | zero => intro token h1 h2; omega
  | succ n ih =>
    intro token h1 h2
    have hcont : (listObjectsV2 b pfx token).contents =
        (b.pages pfx)[token.getD 0] := by
      show (b.pages pfx).getD (token.getD 0) [] = _
      rw [List.getD_eq_getElem?_getD, List.getElem?_eq_getElem h1]
      rfl
    have hok : processEntries pfx e hid (listObjectsV2 b pfx token).contents =
        ((listObjectsV2 b pfx token).contents.filterMap (s3Emit pfx e hid),
          none) := by
      refine processEntries_ok ?_
      intro o ho
      refine hAll o ?_
      rw [hcont] at ho
      exact List.mem_flatten.mpr ⟨_, List.getElem_mem h1, ho⟩
    have hdrop : (b.pages pfx).drop (token.getD 0) =
        (b.pages pfx)[token.getD 0] :: (b.pages pfx).drop (token.getD 0 + 1) :=
      List.drop_eq_getElem_cons h1
    rw [s3Loop, hok]
    dsimp only
    by_cases hlast : token.getD 0 + 1 < (b.pages pfx).length
    · have hnext : (listObjectsV2 b pfx token).nextContinuationToken =
          some (token.getD 0 + 1) := by
        show (if _ < _ then _ else _) = _
        rw [if_pos hlast]
      rw [hnext]
      dsimp only
      rw [ih (some (token.getD 0 + 1)) (by simpa using hlast)
        (by simp only [Option.getD_some]; omega)]
      rw [hdrop, List.flatten_cons, List.filterMap_append, hcont]
      simp
    · have hnext : (listObjectsV2 b pfx token).nextContinuationToken = none := by
        show (if _ < _ then _ else _) = _
        rw [if_neg hlast]
      rw [hnext]
      dsimp only
      rw [hdrop, List.flatten_cons, List.filterMap_append, hcont]
      have : (b.pages pfx).drop (token.getD 0 + 1) = [] :=
        List.drop_eq_nil_of_le (by omega)
      rw [this]
      simp

/-! ## Concrete fixtures used by witnesses -/

/-- A backend serving a two-page listing for the raw prefix `root` and a
nonempty probe page for `root/`. -/
def twoPageBackend : S3Backend :=
  ⟨fun p =>
    if p = "root" then [[⟨"root/a/b", 1, "\"e1\""⟩], [⟨"root/c", 2, "\"e2\""⟩]]
    else if p = "root/" then [[⟨"root/a/b", 1, "\"e1\""⟩]]
    else []⟩

/-- A backend whose only object key extends the raw prefix `root` without a
separator, so the probe under `root/` finds nothing. -/
def mismatchBackend : S3Backend :=
  ⟨fun p => if p = "root" then [[⟨"rootx/a", 1, "\"e\""⟩]] else []⟩

/-! ## The claimed properties -/

/-- C9: the Digest Computer is chunk-size invariant — incrementally hashing
any decomposition of the input into chunks equals hashing the whole content
in one pass — and the digest of zero-byte content is
`d41d8cd98f00b204e9800998ecf8427e`. -/
theorem digest_chunk_invariance (chunks : List (List Nat)) :
    md5Final (chunks.foldl md5Update md5Init) = md5Hex chunks.flatten ∧
    md5Hex [] = "d41d8cd98f00b204e9800998ecf8427e" := by
  constructor
  · rw [foldl_md5Update chunks md5Init (by simp [md5Init])]
    rfl
  · decide

/-- C3: when the local root path does not exist at call time the enumeration
fails with the root-not-found error, fatally and before any record is
yielded. -/
theorem local_root_not_found (excluded : List String) (ignoreHidden : Bool) :
    yieldFilesLocal none excluded ignoreHidden =
      ⟨[], some EnumError.rootNotFound, false⟩ := rfl

/-- C2: with no filters, local enumeration yields exactly one record — the
(path, size, digest) triple — per discovered file and nothing else; any tree
without files, including arbitrarily nested empty directories, contributes
zero records. -/
theorem local_enumeration_completeness (t : FsTree) :
    (yieldFilesLocal (some t) [] false).files =
      (filesOf t).map (fun pc => ⟨pc.1, pc.2.length, md5Hex pc.2⟩) ∧
    ∀ u : FsTree, noFile u = true →
      (yieldFilesLocal (some u) [] false).files = [] := by
  constructor
  · exact filterMap_localEmit_no_filters (filesOf t)
  · intro u hu
    show (filesOf u).filterMap (localEmit [] false) = []
    rw [noFile_filesOf u hu]
    rfl

/-- Witness for C2 at a nest of empty directories. -/
theorem local_enumeration_completeness_witness :
    (yieldFilesLocal (some (FsTree.dir [("a", FsTree.dir [("b", FsTree.dir [])]),
      ("c", FsTree.dir [])])) [] false).files = [] :=
  (local_enumeration_completeness (FsTree.dir [])).2
    (FsTree.dir [("a", FsTree.dir [("b", FsTree.dir [])]),
      ("c", FsTree.dir [])]) (by decide)

/-- C5: an object-store entry that passes the filters yields a record whose
path is the key relative to the prefix, whose size is the listed size and
whose digest is the listed ETag with surrounding quotes stripped; in
particular key `root/a/b` under prefix `root` normalizes to `a/b` and
`root/c` to `c`. -/
theorem s3_record_fields (pfx : String) (e : List String) (hid : Bool)
    (obj : S3Object) (rest : List S3Object) (p : List String)
    (h1 : basename obj.key ∉ e)
    (h2 : (hid && strStartsWith (basename obj.key) ".") = false)
    (h3 : relativeTo obj.key pfx = some p) :
    processEntries pfx e hid (obj :: rest) =
      (⟨p, obj.size, stripQuotes obj.etag⟩ ::
        (processEntries pfx e hid rest).1,
       (processEntries pfx e hid rest).2) ∧
    relativeTo "root/a/b" "root" = some ["a", "b"] ∧
    relativeTo "root/c" "root" = some ["c"] := by
  refine ⟨?_, by decide, by decide⟩
  rw [processEntries, if_neg h1, if_neg (by simp [h2]), h3]

/-- Witness for C5 at a concrete entry with a quoted ETag. -/
theorem s3_record_fields_witness :
    processEntries "root" [] false [⟨"root/a/b", 5, "\"abc\""⟩] =
      (⟨["a", "b"], 5, stripQuotes "\"abc\""⟩ ::
        (processEntries "root" [] false []).1,
       (processEntries "root" [] false []).2) ∧
    relativeTo "root/a/b" "root" = some ["a", "b"] ∧
    relativeTo "root/c" "root" = some ["c"] :=
  s3_record_fields "root" [] false ⟨"root/a/b", 5, "\"abc\""⟩ [] ["a", "b"]
    (by decide) (by decide) (by decide)

/-- C6: normalization strips the root exactly once — a successfully
normalized key is exactly the prefix segments followed by the emitted
path — and a key that does not begin with the prefix makes the run fail
with a fatal prefix-mismatch error instead of yielding a wrong path. -/
theorem s3_normalization_mismatch :
    (∀ (key pfx : String) (p : List String),
        relativeTo key pfx = some p → pathParts key = pathParts pfx ++ p) ∧
    (∀ (pfx : String) (e : List String) (hid : Bool) (obj : S3Object)
        (rest : List S3Object),
        basename obj.key ∉ e →
        (hid && strStartsWith (basename obj.key) ".") = false →
        relativeTo obj.key pfx = none →
        processEntries pfx e hid (obj :: rest) =
          ([], some (EnumError.prefixMismatch obj.key pfx))) := by
  constructor
  · intro key pfx p h
    exact relativeTo_strips_once h
  · intro pfx e hid obj rest h1 h2 h3
    rw [processEntries, if_neg h1, if_neg (by simp [h2]), h3]

/-- Witness for C6 at a key outside the configured prefix. -/
theorem s3_normalization_mismatch_witness :
    processEntries "root" [] false [⟨"other/x", 3, "\"e\""⟩] =
      ([], some (EnumError.prefixMismatch "other/x" "root")) :=
  s3_normalization_mismatch.2 "root" [] false ⟨"other/x", 3, "\"e\""⟩ []
    (by decide) (by decide) (by decide)

/-- C1: past the probe, the pagination loop carries each response's
continuation token into the next request, stops exactly when a response has
none, and yields the filtered entries of all pages in page order then
intra-page order — equal to processing the whole unpaginated listing once,
so no entry is skipped or duplicated across page boundaries. -/
theorem s3_pagination_completeness (b : S3Backend) (pfx : String)
    (e : List String) (hid : Bool)
    (hprobe : (listObjectsV2 b (osPathJoinEmpty pfx) none).contents ≠ [])
    (hAll : ∀ o ∈ (b.pages pfx).flatten, (relativeTo o.key pfx).isSome) :
    yieldFilesS3 b pfx e hid =
      ⟨((b.pages pfx).flatten).filterMap (s3Emit pfx e hid), none, false⟩ ∧
    (yieldFilesS3 b pfx e hid).files =
      (processEntries pfx e hid (b.pages pfx).flatten).1 := by
  have hfalse : (listObjectsV2 b (osPathJoinEmpty pfx) none).contents.isEmpty
      = false := List.isEmpty_eq_false.mpr hprobe
  have hmain : yieldFilesS3 b pfx e hid =
      ⟨((b.pages pfx).flatten).filterMap (s3Emit pfx e hid), none, false⟩ := by
    simp only [yieldFilesS3, hfalse]
    rw [if_neg (by simp)]
    cases hlen : (b.pages pfx).length with
    | zero =>
      have hnil : b.pages pfx = [] := List.eq_nil_of_length_eq_zero hlen
      rw [hnil]
      rfl
    | succ m =>
      rw [s3Loop_run hAll (m + 1) none (by simp [hlen]) (by simp [hlen])]
      simp
  refine ⟨hmain, ?_⟩
  rw [hmain, processEntries_ok hAll]

/-- Witness for C1 on a two-page backend. -/
theorem s3_pagination_completeness_witness :
    yieldFilesS3 twoPageBackend "root" [] false =
      ⟨((twoPageBackend.pages "root").flatten).filterMap
        (s3Emit "root" [] false), none, false⟩ ∧
    (yieldFilesS3 twoPageBackend "root" [] false).files =
      (processEntries "root" [] false (twoPageBackend.pages "root").flatten).1 :=
  s3_pagination_completeness twoPageBackend "root" [] false
    (by decide) (by decide)

/-- C4: the probe request uses the prefix with the separator appended, and
the run ends immediately with no records, no error and the logged warning
precisely when that probe returns no entries. -/
theorem s3_empty_probe_guard (b : S3Backend) (pfx : String) (e : List String)
    (hid : Bool) :
    (listObjectsV2 b (osPathJoinEmpty pfx) none).contents = [] ↔
      yieldFilesS3 b pfx e hid = ⟨[], none, true⟩ := by
  constructor
  · intro h
    simp only [yieldFilesS3, h]
    rfl
  · intro heq
    by_cases hc : (listObjectsV2 b (osPathJoinEmpty pfx) none).contents = []
    · exact hc
    · have hfalse : (listObjectsV2 b (osPathJoinEmpty pfx) none).contents.isEmpty
          = false := List.isEmpty_eq_false.mpr hc
      have hform : yieldFilesS3 b pfx e hid =
          s3Loop b pfx e hid none (b.pages pfx).length := by
        simp only [yieldFilesS3, hfalse]
        rw [if_neg (by simp)]
      rw [hform] at heq
      have hw := s3Loop_warned b pfx e hid (b.pages pfx).length none
      rw [heq] at hw
      simp at hw

/-- Witness for C4 on a backend with no objects at all. -/
theorem s3_empty_probe_guard_witness :
    yieldFilesS3 ⟨fun _ => []⟩ "root" [] false = ⟨[], none, true⟩ :=
  (s3_empty_probe_guard ⟨fun _ => []⟩ "root" [] false).mp (by decide)

/-- C7: on both backends, a discovered file whose base name is in the
exclusion set is never yielded; in particular, of `include_me.txt` and
`exclude_me.txt` in one directory with `exclude_me.txt` excluded, exactly
the record for `include_me.txt` is produced. -/
theorem name_exclusion_filter (e : List String) (hid : Bool) :
    (∀ (t : FsTree) (r : ZarrArchiveFile),
        r ∈ (yieldFilesLocal (some t) e hid).files →
        r.path.getLastD "." ∉ e) ∧
    (∀ (b : S3Backend) (pfx : String) (r : ZarrArchiveFile),
        r ∈ (yieldFilesS3 b pfx e hid).files →
        ∃ o ∈ (b.pages pfx).flatten, basename o.key ∉ e ∧
          relativeTo o.key pfx = some r.path) ∧
    (yieldFilesLocal (some (FsTree.dir [("exclude_me.txt", FsTree.file []),
        ("include_me.txt", FsTree.file [])])) ["exclude_me.txt"] false).files =
      [⟨["include_me.txt"], 0, "d41d8cd98f00b204e9800998ecf8427e"⟩] := by
  refine ⟨?_, ?_, by decide⟩
  · intro t r hr
    have hr' : r ∈ (filesOf t).filterMap (localEmit e hid) := hr
    obtain ⟨pc, _, hemit⟩ := List.mem_filterMap.mp hr'
    exact (localEmit_eq_some hemit).2.1
  · intro b pfx r hr
    obtain ⟨o, ho, h1, _, h3, _, _⟩ := yieldFilesS3_mem hr
    exact ⟨o, ho, h1, h3⟩

/-- Witness for C7 at the two-file directory of the claim. -/
theorem name_exclusion_filter_witness :
    (["include_me.txt"] : List String).getLastD "." ∉
      (["exclude_me.txt"] : List String) :=
  (name_exclusion_filter ["exclude_me.txt"] false).1
    (FsTree.dir [("exclude_me.txt", FsTree.file []),
      ("include_me.txt", FsTree.file [])])
    ⟨["include_me.txt"], 0, "d41d8cd98f00b204e9800998ecf8427e"⟩
    (by decide)

/-- C8: on both backends with hidden files ignored, a discovered file whose
base name starts with a period is never yielded; in particular, of
`.hidden` and `not_hidden.txt`, exactly the record for `not_hidden.txt` is
produced. -/
theorem hidden_exclusion_filter (e : List String) :
    (∀ (t : FsTree) (r : ZarrArchiveFile),
        r ∈ (yieldFilesLocal (some t) e true).files →
        strStartsWith (r.path.getLastD ".") "." = false) ∧
    (∀ (b : S3Backend) (pfx : String) (r : ZarrArchiveFile),
        r ∈ (yieldFilesS3 b pfx e true).files →
        ∃ o ∈ (b.pages pfx).flatten,
          strStartsWith (basename o.key) "." = false ∧
          relativeTo o.key pfx = some r.path) ∧
    (yieldFilesLocal (some (FsTree.dir [(".hidden", FsTree.file []),
        ("not_hidden.txt", FsTree.file [])])) [] true).files =
      [⟨["not_hidden.txt"], 0, "d41d8cd98f00b204e9800998ecf8427e"⟩] := by
  refine ⟨?_, ?_, by decide⟩
  · intro t r hr
    have hr' : r ∈ (filesOf t).filterMap (localEmit e true) := hr
    obtain ⟨pc, _, hemit⟩ := List.mem_filterMap.mp hr'
    exact (localEmit_eq_some hemit).2.2.1 rfl
  · intro b pfx r hr
    obtain ⟨o, ho, _, h2, h3, _, _⟩ := yieldFilesS3_mem hr
    exact ⟨o, ho, h2 rfl, h3⟩

/-- Witness for C8 at the two-file directory of the claim. -/
theorem hidden_exclusion_filter_witness :
    strStartsWith ((["not_hidden.txt"] : List String).getLastD ".") "."
      = false :=
  (hidden_exclusion_filter []).1
    (FsTree.dir [(".hidden", FsTree.file []),
      ("not_hidden.txt", FsTree.file [])])
    ⟨["not_hidden.txt"], 0, "d41d8cd98f00b204e9800998ecf8427e"⟩
    (by decide)

/-- C10: the probe lists under the slash-suffixed prefix while the main loop
lists under the raw prefix, so on a bucket where some key extends the raw
prefix but none extends the slash-suffixed one, the enumeration warns and
yields nothing even though the raw-prefix listing is nonempty. -/
theorem s3_probe_main_mismatch (b : S3Backend) (objs : List S3Object)
    (pfx : String)
    (hprobe : (b.pages (osPathJoinEmpty pfx)).flatten =
      objs.filter (fun o => strStartsWith o.key (osPathJoinEmpty pfx)))
    (hmain : (b.pages pfx).flatten =
      objs.filter (fun o => strStartsWith o.key pfx))
    (hsome : ∃ o ∈ objs, strStartsWith o.key pfx = true)
    (hnone : ∀ o ∈ objs, strStartsWith o.key (osPathJoinEmpty pfx) = false) :
    (∀ (e : List String) (hid : Bool),
        yieldFilesS3 b pfx e hid = ⟨[], none, true⟩) ∧
    (b.pages pfx).flatten ≠ [] := by
  constructor
  · intro e hid
    have hfilter : objs.filter
        (fun o => strStartsWith o.key (osPathJoinEmpty pfx)) = [] := by
      rw [List.filter_eq_nil_iff]
      intro o ho
      simp [hnone o ho]
    have hall : ∀ l ∈ b.pages (osPathJoinEmpty pfx), l = [] :=
      List.flatten_eq_nil_iff.mp (hprobe.trans hfilter)
    have hcontents : (listObjectsV2 b (osPathJoinEmpty pfx) none).contents
        = [] := by
      show (b.pages (osPathJoinEmpty pfx)).getD 0 [] = []
      cases hp : b.pages (osPathJoinEmpty pfx) with
      | nil => rfl
      | cons x xs =>
        rw [List.getD_cons_zero]
        exact hall x (by rw [hp]; exact List.mem_cons_self x xs)
    simp only [yieldFilesS3, hcontents]
    rfl
  · rw [hmain]
    obtain ⟨o, ho, hks⟩ := hsome
    exact List.ne_nil_of_mem (List.mem_filter.mpr ⟨ho, hks⟩)

/-- Witness for C10 at a key extending the prefix without a separator. -/
theorem s3_probe_main_mismatch_witness :
    yieldFilesS3 mismatchBackend "root" [] false = ⟨[], none, true⟩ :=
  (s3_probe_main_mismatch mismatchBackend [⟨"rootx/a", 1, "\"e\""⟩] "root"
    (by decide) (by decide) (by decide) (by decide)).1 [] false
